import Mathlib

/-!
Verification of the Markov-chain random-walk notebook `src/main.ipynb` of
aleathwick/terminal-walker.

Shallow embedding conventions:
- real numbers are modelled by `ℚ`;
- NumPy's uniform and exponential draws, produced inside the Python code by
  `np.random.rand()` and `np.random.exponential`, are supplied as explicit
  arguments or streams `ℕ → ℚ` consumed one value per call;
- non-finite IEEE results (NaN from `0/0`, infinity from `x/0.0`) are
  modelled by `none : Option ℚ`; every ordered comparison against such a
  value is false, matching IEEE semantics on the checks the code performs;
- a Python runtime error (AssertionError, ZeroDivisionError, IndexError,
  falling off the end of a function) is modelled by `none` or `Except.error`.
-/

namespace TerminalWalker

/-- Embedding of `generate_state` from src/main.ipynb:
`u = np.random.rand(); for j in range(len(PC_row)): if u < PC_row[j]: return j`.
The uniform draw `u` is made an explicit argument.  When the loop falls
through, the Python function returns `None`, modelled by `none`. -/
def generate_state (PC_row : List ℚ) (u : ℚ) : Option ℕ :=
  match PC_row with
  | [] => none
  | c :: rest =>
    if u < c then some 0 else (generate_state rest u).map (fun j => j + 1)

/-- Model of `np.transpose` on a rectangular two-dimensional array given as a
list of rows: entry `(j, s)` of the result is entry `(s, j)` of the input. -/
def npTranspose (a : List (List ℚ)) : List (List ℚ) :=
  (List.range (a.headD []).length).map (fun j => a.map (fun row => row.getD j 0))

/-- Embedding of `cumulative_matrix` from src/main.ipynb:
`np.transpose(np.array([np.sum(m[...,:i], axis=-1) for i in range(1, m.shape[-1] + 1)]))`.
`m.shape[-1]`, the common row length, is read off the first row, and
`np.sum(m[...,:i], axis=-1)` is the vector of row-wise sums of the first `i`
columns. -/
def cumulative_matrix (m : List (List ℚ)) : List (List ℚ) :=
  npTranspose ((List.range (m.headD []).length).map
    (fun i => m.map (fun row => (row.take (i + 1)).sum)))

/-- Row sums of the raw weight matrix: `row_sums = P.sum(axis=-1, keepdims=True)`.
This is also the leaving-rate vector `q` of the setup cell. -/
def row_sums (P : List (List ℚ)) : List ℚ := P.map List.sum

/-- One row of `P = P / row_sums`.  When a row sum is zero, NumPy's division
produces non-finite entries (NaN or infinity) with only a runtime warning;
`none` models these. -/
def normalizeRow (row : List ℚ) : List (Option ℚ) :=
  row.map (fun x => if row.sum = 0 then none else some (x / row.sum))

/-- The normalized matrix `P = P / row_sums` with non-finite entries as `none`. -/
def normalizeP (P : List (List ℚ)) : List (List (Option ℚ)) := P.map normalizeRow

/-- Addition on values that may be non-finite: any non-finite operand makes
the result non-finite. -/
def addF : Option ℚ → Option ℚ → Option ℚ
  | some a, some b => some (a + b)
  | _, _ => none

/-- Sum of a row that may hold non-finite values, modelling `np.sum`:
any non-finite summand makes the whole sum non-finite. -/
def sumF : List (Option ℚ) → Option ℚ
  | [] => some 0
  | x :: xs => addF x (sumF xs)

/-- The tolerance `1e-5` of the row-sum assertion. -/
def tol : ℚ := 1 / 100000

/-- One row of the check `np.abs(np.sum(P, axis=-1) - 1) < 1e-5`.  An ordered
comparison against a non-finite value is false in IEEE arithmetic. -/
def rowCheck (row : List (Option ℚ)) : Bool :=
  match sumF row with
  | none => false
  | some s => decide (|s - 1| < tol)

/-- The guard `assert np.all(np.abs(np.sum(P, axis=-1) - 1) < 1e-5)` of the
simulation cell, applied to the normalized matrix. -/
def rowSumAssert (P : List (List ℚ)) : Bool := (normalizeP P).all rowCheck

/-- `starting_state` of the setup cell: "Can be an integer index of a state,
or list of probabilities."  In the distribution case the simulation cell
precomputes the cumulative row `starting_state_C = cumulative_matrix(starting_state)`,
which is what the `dist` constructor stores. -/
inductive StartSpec where
  | fixed (i : ℕ)
  | dist (C : List ℚ)

/-- First state of a walk: `i = starting_state` in the integer case, else
`i = generate_state(starting_state_C)`.  Returns the state together with the
next unused index into the uniform-draw stream; `none` models the sampler
falling through. -/
def getStart : StartSpec → (ℕ → ℚ) → ℕ → Option (ℕ × ℕ)
  | .fixed i, _, n => some (i, n)
  | .dist C, us, n => (generate_state C (us n)).map (fun i => (i, n + 1))

/-- The mutable variables of the step-budgeted simulation cell: current state
`i`, current `walk`, the collections `all_walks` and `final_states`, and the
index `n` of the next unused uniform draw. -/
structure SimState where
  i : ℕ
  walk : List ℕ
  all_walks : List (List ℕ)
  final_states : List ℕ
  n : ℕ
  deriving DecidableEq

/-- One iteration of `for step in tqdm(range(steps))` in the step-budgeted
simulation cell: sample `i = generate_state(PC[i])`, append it to the walk,
and on hitting a terminal state record the final state, store the walk and
restart from a fresh starting state.  `none` models a Python error (the
sampler fell through, or `PC` was indexed by an out-of-range state). -/
def simStep (PC : List (List ℚ)) (start : StartSpec) (terminal : List ℕ)
    (us : ℕ → ℚ) (st : SimState) : Option SimState :=
  match generate_state (PC.getD st.i []) (us st.n) with
  | none => none
  | some i2 =>
    if i2 ∈ terminal then
      match getStart start us (st.n + 1) with
      | none => none
      | some p =>
        some ⟨p.1, [p.1], st.all_walks ++ [st.walk ++ [i2]],
          st.final_states ++ [i2], p.2⟩
    else some ⟨i2, st.walk ++ [i2], st.all_walks, st.final_states, st.n + 1⟩

/-- `steps` iterations of the step-budgeted loop. -/
def simRun (PC : List (List ℚ)) (start : StartSpec) (terminal : List ℕ)
    (us : ℕ → ℚ) : ℕ → SimState → Option SimState
  | 0, st => some st
  | steps + 1, st =>
    match simStep PC start terminal us st with
    | none => none
    | some st2 => simRun PC start terminal us steps st2

/-- The step-budgeted simulation cell after the assertion: generate the first
state, set `walk = [i]`, `all_walks = []`, `final_states = []`, then run the
loop for the given number of steps. -/
def stepBudgeted (PC : List (List ℚ)) (start : StartSpec) (terminal : List ℕ)
    (us : ℕ → ℚ) (steps : ℕ) : Option SimState :=
  match getStart start us 0 with
  | none => none
  | some p => simRun PC start terminal us steps ⟨p.1, [p.1], [], [], p.2⟩

/-- The whole simulation cell in source order: the row-sum assertion on the
normalized matrix, then `PC = cumulative_matrix(P)`, then the step-budgeted
loop.  A failing assertion (AssertionError) is `none`: the run aborts before
any walk sampling occurs. -/
def simulationCell (P : List (List ℚ)) (start : StartSpec) (terminal : List ℕ)
    (us : ℕ → ℚ) (steps : ℕ) : Option SimState :=
  if rowSumAssert P then
    stepBudgeted
      (cumulative_matrix (P.map (fun row => row.map (fun x => x / row.sum))))
      start terminal us steps
  else none

/-- The `while i not in terminal_states` loop of the walk-budgeted cell, made
total with an explicit fuel bound (the notebook notes it "will go forever"
when no terminal state is reachable; exhausted fuel is `none`).  Returns the
finished walk, its final state and the next unused draw index. -/
def whileWalk (PC : List (List ℚ)) (terminal : List ℕ) (us : ℕ → ℚ) :
    ℕ → ℕ → List ℕ → ℕ → Option (List ℕ × ℕ × ℕ)
  | 0, i, walk, n => if i ∈ terminal then some (walk, i, n) else none
  | fuel + 1, i, walk, n =>
    if i ∈ terminal then some (walk, i, n)
    else
      match generate_state (PC.getD i []) (us n) with
      | none => none
      | some i2 => whileWalk PC terminal us fuel i2 (walk ++ [i2]) (n + 1)

/-- The `for iteration in tqdm(range(total_iterations))` loop of the
walk-budgeted cell, threading `(all_walks, final_states)` and the draw
index: each iteration starts a fresh walk, runs it to absorption, then
appends `i` to `final_states` and `walk` to `all_walks`. -/
def walkBudgetedLoop (PC : List (List ℚ)) (start : StartSpec)
    (terminal : List ℕ) (us : ℕ → ℚ) (fuel : ℕ) :
    ℕ → List (List ℕ) × List ℕ × ℕ → Option (List (List ℕ) × List ℕ × ℕ)
  | 0, acc => some acc
  | iters + 1, acc =>
    match getStart start us acc.2.2 with
    | none => none
    | some p =>
      match whileWalk PC terminal us fuel p.1 [p.1] p.2 with
      | none => none
      | some r =>
        walkBudgetedLoop PC start terminal us fuel iters
          (acc.1 ++ [r.1], acc.2.1 ++ [r.2.1], r.2.2)

/-- The walk-budgeted cell run from empty collections. -/
def walkBudgeted (PC : List (List ℚ)) (start : StartSpec) (terminal : List ℕ)
    (us : ℕ → ℚ) (fuel iters : ℕ) : Option (List (List ℕ) × List ℕ × ℕ) :=
  walkBudgetedLoop PC start terminal us fuel iters ([], [], 0)

/-- Python division, raising `ZeroDivisionError` on a zero denominator. -/
def pyDiv (a b : ℚ) : Except String ℚ :=
  if b = 0 then .error "ZeroDivisionError" else .ok (a / b)

/-- Sequencing of one more comprehension element in front of the rest: the
first raised error aborts the whole comprehension. -/
def exceptCons (x : Except String ℚ) (xs : Except String (List ℚ)) :
    Except String (List ℚ) :=
  match x, xs with
  | .ok a, .ok as => .ok (a :: as)
  | .error e, _ => .error e
  | _, .error e => .error e

/-- The absorption-proportion cell:
`[sum([1 for i in final_states if i == j]) / len(final_states) for j in terminal_states]`.
`sum([1 for i in fs if i == j])` is the number of entries of `fs` equal to
`j`; the elements are evaluated left to right. -/
def absorption_cell : List ℕ → List ℕ → Except String (List ℚ)
  | [], _ => .ok []
  | j :: rest, fs =>
    exceptCons (pyDiv ((fs.filter (fun i => i == j)).length : ℚ) (fs.length : ℚ))
      (absorption_cell rest fs)

/-- The scale `1 / q[i]` passed to `np.random.exponential`.  For `q[i] = 0`
NumPy computes IEEE infinity with only a runtime warning; `none` models that
non-finite scale. -/
def holding_scale (q : List ℚ) (i : ℕ) : Option ℚ :=
  if q.getD i 0 = 0 then none else some (1 / q.getD i 0)

/-- Inner loop `for i in walk[:]` of the reaching-times cell: one exponential
draw per visited state, with `np.random.exponential(scale)` modelled as
`scale * e` for a standard-exponential draw `e` taken from the stream `es`.
An infinite scale gives an infinite draw, still `none`. -/
def walkTimesGo (q : List ℚ) (es : ℕ → ℚ) : List ℕ → ℕ → List (Option ℚ) × ℕ
  | [], n => ([], n)
  | i :: rest, n =>
    ((holding_scale q i).map (fun s => s * es n) :: (walkTimesGo q es rest (n + 1)).1,
      (walkTimesGo q es rest (n + 1)).2)

/-- Outer loop `for j, walk in enumerate(tqdm(all_walks))` of the
reaching-times cell. -/
def walkTimesLoop (q : List ℚ) (es : ℕ → ℚ) :
    List (List ℕ) → ℕ → List (List (Option ℚ)) × ℕ
  | [], n => ([], n)
  | w :: ws, n =>
    ((walkTimesGo q es w n).1 :: (walkTimesLoop q es ws (walkTimesGo q es w n).2).1,
      (walkTimesLoop q es ws (walkTimesGo q es w n).2).2)

/-- The reaching-times cell: `all_times` after both loops, exponential draws
taken from stream position 0 on. -/
def all_times (q : List ℚ) (es : ℕ → ℚ) (aw : List (List ℕ)) :
    List (List (Option ℚ)) :=
  (walkTimesLoop q es aw 0).1

/-- Last element of a list of states, default `0`. -/
def lastSt (l : List ℕ) : ℕ := l.getD (l.length - 1) 0

/-- Last element of a row of rationals, default `0`. -/
def lastQ (l : List ℚ) : ℚ := l.getD (l.length - 1) 0

/-- Constant uniform-draw stream used in concrete runs. -/
def quarterStream : ℕ → ℚ := fun _ => 1 / 4

/-- Constant standard-exponential draw stream used in concrete runs. -/
def oneStream : ℕ → ℚ := fun _ => 1

/-- Loop invariant of the step-budgeted simulation cell: the current walk is
nonempty, ends at the current state, and is terminal-free after position 0;
every stored walk has at least two states, ends at a terminal state, and is
terminal-free strictly between its endpoints; stored walks and recorded
final states are parallel collections. -/
def Inv (terminal : List ℕ) (st : SimState) : Prop :=
  st.walk ≠ [] ∧
  lastSt st.walk = st.i ∧
  (∀ k, 0 < k → k < st.walk.length → st.walk.getD k 0 ∉ terminal) ∧
  (∀ w ∈ st.all_walks, 2 ≤ w.length ∧ lastSt w ∈ terminal ∧
    ∀ k, 0 < k → k + 1 < w.length → w.getD k 0 ∉ terminal) ∧
  st.final_states.length = st.all_walks.length ∧
  (∀ k, k < st.all_walks.length →
    lastSt (st.all_walks.getD k []) = st.final_states.getD k 0)

theorem getD_append_lt {α : Type} (d : α) :
    ∀ (l l2 : List α) (k : ℕ), k < l.length → (l ++ l2).getD k d = l.getD k d
  | [], _, k, h => absurd h (by simp)
  | _ :: _, _, 0, _ => rfl
  | _ :: l, l2, k + 1, h => getD_append_lt d l l2 k (by simpa using h)

theorem getD_append_len {α : Type} (d : α) :
    ∀ (l : List α) (a : α), (l ++ [a]).getD l.length d = a
  | [], _ => rfl
  | _ :: l, a => getD_append_len d l a

theorem lastSt_append (l : List ℕ) (a : ℕ) : lastSt (l ++ [a]) = a := by
  unfold lastSt
  have h : (l ++ [a]).length - 1 = l.length := by simp
  rw [h, getD_append_len]

theorem gs_some_iff : ∀ (row : List ℚ) (u : ℚ) (j : ℕ),
    generate_state row u = some j ↔
      j < row.length ∧ u < row.getD j 0 ∧ ∀ k, k < j → ¬ u < row.getD k 0
  | [], u, j => by simp [generate_state]
  | c :: rest, u, j => by
    by_cases hc : u < c
    · rw [generate_state, if_pos hc]
      constructor
      · intro h
        injection h with h
        subst h
        exact ⟨by simp, hc, fun k hk => absurd hk (Nat.not_lt_zero k)⟩
      · rintro ⟨hj, hu, hmin⟩
        cases j with
        | zero => rfl
        | succ j2 => exact absurd hc (hmin 0 (Nat.succ_pos j2))
    · rw [generate_state, if_neg hc]
      constructor
      · intro h
        cases hg : generate_state rest u with
        | none => rw [hg] at h; exact absurd h (by simp)
        | some j2 =>
          rw [hg] at h
          simp only [Option.map_some'] at h
          injection h with h
          subst h
          obtain ⟨h1, h2, h3⟩ := (gs_some_iff rest u j2).1 hg
          refine ⟨by simpa using Nat.succ_lt_succ h1, h2, ?_⟩
          intro k hk
          cases k with
          | zero => exact hc
          | succ k2 => exact h3 k2 (by omega)
      · rintro ⟨hj, hu, hmin⟩
        cases j with
        | zero => exact absurd hu hc
        | succ j2 =>
          have h2 : generate_state rest u = some j2 :=
            (gs_some_iff rest u j2).2
              ⟨by simpa using hj, hu, fun k hk => hmin (k + 1) (by omega)⟩
          rw [h2]
          rfl

theorem gs_none_iff : ∀ (row : List ℚ) (u : ℚ),
    generate_state row u = none ↔ ∀ j, j < row.length → ¬ u < row.getD j 0
  | [], u => by simp [generate_state]
  | c :: rest, u => by
    by_cases hc : u < c
    · constructor
      · intro h
        rw [generate_state, if_pos hc] at h
        exact absurd h (by simp)
      · intro h
        exact absurd hc (h 0 (by simp))
    · have ih := gs_none_iff rest u
      constructor
      · intro h j hj
        rw [generate_state, if_neg hc] at h
        have hrest : generate_state rest u = none := by
          cases hg : generate_state rest u with
          | none => rfl
          | some j2 => rw [hg] at h; exact absurd h (by simp)
        cases j with
        | zero => exact hc
        | succ j2 => exact (ih.1 hrest) j2 (by simpa using hj)
      · intro h
        rw [generate_state, if_neg hc]
        have hrest : generate_state rest u = none :=
          ih.2 (fun j hj => h (j + 1) (by simpa using hj))
        rw [hrest]
        rfl

/-- C1: for a cumulative row and a fixed uniform draw `u`, `generate_state`
returns precisely the smallest index `j` with `u` strictly below the
cumulative value at `j` (so the result is a deterministic function of `u`),
and `u = 0` yields index 0 whenever the first cumulative value is positive. -/
theorem C1_sampler_smallest_index (row : List ℚ) (u : ℚ) (j : ℕ) :
    (generate_state row u = some j ↔
      j < row.length ∧ u < row.getD j 0 ∧ ∀ k, k < j → ¬ u < row.getD k 0) ∧
    (u = 0 → 0 < row.getD 0 0 → generate_state row u = some 0) := by
  constructor
  · exact gs_some_iff row u j
  · intro hu h0
    subst hu
    rcases row with _ | ⟨c, rest⟩
    · simp at h0
    · have h0c : (0 : ℚ) < c := by simpa using h0
      rw [generate_state, if_pos h0c]

/-- C1 witness: on the cumulative row `[1/2, 1]` the draw `3/4` selects
index 1 and the draw `0` selects index 0. -/
theorem C1_witness :
    generate_state [(1 : ℚ)/2, 1] (3/4) = some 1 ∧
    generate_state [(1 : ℚ)/2, 1] 0 = some 0 := by
  constructor
  · refine (C1_sampler_smallest_index [(1 : ℚ)/2, 1] (3/4) 1).1.2 ⟨by norm_num, by norm_num, ?_⟩
    intro k hk
    have hk0 : k = 0 := by omega
    subst hk0
    norm_num
  · exact (C1_sampler_smallest_index [(1 : ℚ)/2, 1] 0 0).2 rfl (by norm_num)

/-- C5 counterexample: on the row `[1/2, 9/10]`, whose cumulative values
never exceed the draw `19/20`, the sampler does not select the last index 1;
it falls through and returns `none` (Python `None`). -/
theorem C5_counterexample :
    generate_state [(1 : ℚ)/2, 9/10] (19/20) ≠ some 1 ∧
    generate_state [(1 : ℚ)/2, 9/10] (19/20) = none := by
  constructor
  · intro h
    have := (gs_some_iff [(1 : ℚ)/2, 9/10] (19/20) 1).1 h
    norm_num at this
  · rw [gs_none_iff]
    intro j hj
    have hj2 : j = 0 ∨ j = 1 := by
      simp only [List.length_cons, List.length_nil] at hj
      omega
    rcases hj2 with h | h <;> subst h <;>
      simp only [List.getD_cons_zero, List.getD_cons_succ] <;> norm_num

/-- C5 amended: the sampler returns exactly one index whenever some
cumulative value strictly exceeds `u` — in particular for a well-formed
cumulative row ending at 1 and any draw `0 ≤ u < 1` — but in the
numerically degenerate case where no cumulative value exceeds `u` it
returns no index at all (Python `None`), not the last index. -/
theorem C5_amended_degenerate_returns_none (row : List ℚ) (u : ℚ) :
    (generate_state row u = none ↔ ∀ j, j < row.length → ¬ u < row.getD j 0) ∧
    (row ≠ [] → lastQ row = 1 → 0 ≤ u → u < 1 →
      ∃ j, generate_state row u = some j) := by
  constructor
  · exact gs_none_iff row u
  · intro hne hlast _ hu1
    rcases hg : generate_state row u with _ | j
    · exfalso
      have hlen : 0 < row.length := List.length_pos.2 hne
      have := (gs_none_iff row u).1 hg (row.length - 1) (by omega)
      unfold lastQ at hlast
      rw [hlast] at this
      exact this hu1
    · exact ⟨j, rfl⟩

/-- C5 amended witness: a valid cumulative row with `u = 3/4` yields an
index, while the degenerate row of the counterexample yields `none`. -/
theorem C5_witness :
    (∃ j, generate_state [(1 : ℚ)/2, 1] (3/4) = some j) ∧
    generate_state [(2 : ℚ)/5, 9/10] (19/20) = none := by
  constructor
  · exact (C5_amended_degenerate_returns_none [(1 : ℚ)/2, 1] (3/4)).2 (by simp)
      (by norm_num [lastQ]) (by norm_num) (by norm_num)
  · refine (C5_amended_degenerate_returns_none [(2 : ℚ)/5, 9/10] (19/20)).1.2 ?_
    intro j hj
    have hj2 : j = 0 ∨ j = 1 := by
      simp only [List.length_cons, List.length_nil] at hj
      omega
    rcases hj2 with h | h <;> subst h <;>
      simp only [List.getD_cons_zero, List.getD_cons_succ] <;> norm_num

theorem inv_simStep (PC : List (List ℚ)) (start : StartSpec) (terminal : List ℕ)
    (us : ℕ → ℚ) (st st2 : SimState)
    (h : simStep PC start terminal us st = some st2)
    (hinv : Inv terminal st) : Inv terminal st2 := by
  obtain ⟨hne, hlast, hcur, hdone, hlen, hpar⟩ := hinv
  unfold simStep at h
  split at h
  · simp at h
  · rename_i i2 hg
    split at h
    · rename_i hterm
      split at h
      · simp at h
      · rename_i p hp
        injection h with h
        subst h
        refine ⟨by simp, rfl, ?_, ?_, ?_, ?_⟩
        · intro k hk hk2
          simp only [List.length_cons, List.length_nil] at hk2
          omega
        · intro w hw
          rcases List.mem_append.mp hw with hw | hw
          · exact hdone w hw
          · have hw2 : w = st.walk ++ [i2] := by simpa using hw
            subst hw2
            refine ⟨?_, ?_, ?_⟩
            · have h1 : 1 ≤ st.walk.length := List.length_pos.2 hne
              simp only [List.length_append, List.length_cons, List.length_nil]
              omega
            · rw [lastSt_append]
              exact hterm
            · intro k hk hk2
              simp only [List.length_append, List.length_cons,
                List.length_nil] at hk2
              rw [getD_append_lt 0 st.walk [i2] k (by omega)]
              exact hcur k hk (by omega)
        · simp only [List.length_append, List.length_cons, List.length_nil]
          omega
        · intro k hk
          simp only [List.length_append, List.length_cons,
            List.length_nil] at hk
          rcases Nat.lt_or_ge k st.all_walks.length with h1 | h1
          · rw [getD_append_lt ([] : List ℕ) st.all_walks _ k h1,
              getD_append_lt 0 st.final_states _ k (by omega)]
            exact hpar k h1
          · have hk1 : k = st.all_walks.length := by omega
            subst hk1
            rw [getD_append_len ([] : List ℕ) st.all_walks (st.walk ++ [i2]),
              ← hlen, getD_append_len 0 st.final_states i2, lastSt_append]
    · rename_i hterm
      injection h with h
      subst h
      refine ⟨by simp, lastSt_append st.walk i2, ?_, hdone, hlen, hpar⟩
      intro k hk hk2
      simp only [List.length_append, List.length_cons, List.length_nil] at hk2
      rcases Nat.lt_or_ge k st.walk.length with h1 | h1
      · rw [getD_append_lt 0 st.walk [i2] k h1]
        exact hcur k hk h1
      · have hk1 : k = st.walk.length := by omega
        subst hk1
        rw [getD_append_len]
        exact hterm

theorem inv_simRun (PC : List (List ℚ)) (start : StartSpec) (terminal : List ℕ)
    (us : ℕ → ℚ) :
    ∀ (steps : ℕ) (st st2 : SimState),
      simRun PC start terminal us steps st = some st2 →
      Inv terminal st → Inv terminal st2
  | 0, st, st2, h, hinv => by
    unfold simRun at h
    injection h with h
    exact h ▸ hinv
  | steps + 1, st, st2, h, hinv => by
    unfold simRun at h
    split at h
    · simp at h
    · rename_i st1 hstep
      exact inv_simRun PC start terminal us steps st1 st2 h
        (inv_simStep PC start terminal us st st1 hstep hinv)

theorem inv_init (terminal : List ℕ) (i0 n0 : ℕ) :
    Inv terminal ⟨i0, [i0], [], [], n0⟩ := by
  refine ⟨by simp, rfl, ?_, ?_, rfl, ?_⟩
  · intro k hk hk2
    simp only [List.length_cons, List.length_nil] at hk2
    omega
  · intro w hw
    simp at hw
  · intro k hk
    simp at hk

theorem inv_stepBudgeted (PC : List (List ℚ)) (start : StartSpec)
    (terminal : List ℕ) (us : ℕ → ℚ) (steps : ℕ) (st : SimState)
    (h : stepBudgeted PC start terminal us steps = some st) :
    Inv terminal st := by
  unfold stepBudgeted at h
  split at h
  · simp at h
  · rename_i p hp
    exact inv_simRun PC start terminal us steps _ st h (inv_init terminal p.1 p.2)

theorem whileWalk_spec (PC : List (List ℚ)) (terminal : List ℕ) (us : ℕ → ℚ) :
    ∀ (fuel i : ℕ) (walk : List ℕ) (n : ℕ) (r : List ℕ × ℕ × ℕ),
      whileWalk PC terminal us fuel i walk n = some r →
      walk ≠ [] → lastSt walk = i →
      (∀ k, 0 < k → k + 1 < walk.length → walk.getD k 0 ∉ terminal) →
      r.1 ≠ [] ∧ lastSt r.1 = r.2.1 ∧ r.2.1 ∈ terminal ∧
        ∀ k, 0 < k → k + 1 < r.1.length → r.1.getD k 0 ∉ terminal
  | 0, i, walk, n, r, h, hne, hlast, hint => by
    unfold whileWalk at h
    split at h
    · rename_i hterm
      injection h with h
      subst h
      exact ⟨hne, hlast, hterm, hint⟩
    · simp at h
  | fuel + 1, i, walk, n, r, h, hne, hlast, hint => by
    unfold whileWalk at h
    split at h
    · rename_i hterm
      injection h with h
      subst h
      exact ⟨hne, hlast, hterm, hint⟩
    · rename_i hterm
      split at h
      · simp at h
      · rename_i i2 hg
        refine whileWalk_spec PC terminal us fuel i2 (walk ++ [i2]) (n + 1) r h
          (by simp) (lastSt_append walk i2) ?_
        intro k hk hk2
        simp only [List.length_append, List.length_cons, List.length_nil] at hk2
        have hkl : k < walk.length := by omega
        rw [getD_append_lt 0 walk [i2] k hkl]
        rcases Nat.lt_or_ge (k + 1) walk.length with h1 | h1
        · exact hint k hk h1
        · have hk1 : k = walk.length - 1 := by omega
          have he : walk.getD k 0 = lastSt walk := by
            unfold lastSt
            rw [hk1]
          rw [he, hlast]
          exact hterm

/-- Loop invariant of the walk-budgeted cell: every stored walk is nonempty,
ends at a terminal state and is terminal-free strictly between its
endpoints, and the stored walks and final states are parallel. -/
def InvW (terminal : List ℕ) (acc : List (List ℕ) × List ℕ × ℕ) : Prop :=
  (∀ w ∈ acc.1, w ≠ [] ∧ lastSt w ∈ terminal ∧
    ∀ k, 0 < k → k + 1 < w.length → w.getD k 0 ∉ terminal) ∧
  acc.2.1.length = acc.1.length ∧
  (∀ k, k < acc.1.length → lastSt (acc.1.getD k []) = acc.2.1.getD k 0)

theorem inv_walkLoop (PC : List (List ℚ)) (start : StartSpec) (terminal : List ℕ)
    (us : ℕ → ℚ) (fuel : ℕ) :
    ∀ (iters : ℕ) (acc r : List (List ℕ) × List ℕ × ℕ),
      walkBudgetedLoop PC start terminal us fuel iters acc = some r →
      InvW terminal acc → InvW terminal r
  | 0, acc, r, h, hinv => by
    unfold walkBudgetedLoop at h
    injection h with h
    exact h ▸ hinv
  | iters + 1, acc, r, h, hinv => by
    obtain ⟨hall, hlen, hpar⟩ := hinv
    unfold walkBudgetedLoop at h
    split at h
    · simp at h
    · rename_i p hp
      split at h
      · simp at h
      · rename_i w hw
        have hspec := whileWalk_spec PC terminal us fuel p.1 [p.1] p.2 w hw
          (by simp) rfl (by
            intro k hk hk2
            simp only [List.length_cons, List.length_nil] at hk2
            omega)
        refine inv_walkLoop PC start terminal us fuel iters _ r h ⟨?_, ?_, ?_⟩
        · intro x hx
          rcases List.mem_append.mp hx with hx | hx
          · exact hall x hx
          · have hx2 : x = w.1 := by simpa using hx
            subst hx2
            refine ⟨hspec.1, ?_, hspec.2.2.2⟩
            rw [hspec.2.1]
            exact hspec.2.2.1
        · simp only [List.length_append, List.length_cons, List.length_nil]
          omega
        · intro k hk
          simp only [List.length_append, List.length_cons, List.length_nil] at hk
          rcases Nat.lt_or_ge k acc.1.length with h1 | h1
          · rw [getD_append_lt ([] : List ℕ) acc.1 _ k h1,
              getD_append_lt 0 acc.2.1 _ k (by omega)]
            exact hpar k h1
          · have hk1 : k = acc.1.length := by omega
            subst hk1
            rw [getD_append_len ([] : List ℕ) acc.1 w.1, ← hlen,
              getD_append_len 0 acc.2.1 w.2.1]
            exact hspec.2.1

theorem inv_walkBudgeted (PC : List (List ℚ)) (start : StartSpec)
    (terminal : List ℕ) (us : ℕ → ℚ) (fuel iters : ℕ)
    (r : List (List ℕ) × List ℕ × ℕ)
    (h : walkBudgeted PC start terminal us fuel iters = some r) :
    InvW terminal r := by
  refine inv_walkLoop PC start terminal us fuel iters ([], [], 0) r h
    ⟨?_, rfl, ?_⟩
  · intro w hw
    simp at hw
  · intro k hk
    simp at hk

/-- C2: in both driving modes, every stored walk ends at a state of the
terminal set and has no terminal state at any interior position (strictly
between its first and last element); and in step-budgeted mode the walk
still in progress at budget exhaustion is not in the stored collection —
only walks that actually reached termination are kept. -/
theorem C2_completed_walks_terminal (PC : List (List ℚ)) (start : StartSpec)
    (terminal : List ℕ) (us : ℕ → ℚ) (steps : ℕ) (st : SimState)
    (PC2 : List (List ℚ)) (start2 : StartSpec) (terminal2 : List ℕ)
    (us2 : ℕ → ℚ) (fuel iters : ℕ) (r : List (List ℕ) × List ℕ × ℕ)
    (h1 : stepBudgeted PC start terminal us steps = some st)
    (h2 : walkBudgeted PC2 start2 terminal2 us2 fuel iters = some r) :
    ((∀ w ∈ st.all_walks, lastSt w ∈ terminal ∧
        ∀ k, 0 < k → k + 1 < w.length → w.getD k 0 ∉ terminal) ∧
      st.walk ∉ st.all_walks) ∧
    (∀ w ∈ r.1, lastSt w ∈ terminal2 ∧
      ∀ k, 0 < k → k + 1 < w.length → w.getD k 0 ∉ terminal2) := by
  obtain ⟨hne, hlast, hcur, hdone, hlen, hpar⟩ :=
    inv_stepBudgeted PC start terminal us steps st h1
  have hinvw := inv_walkBudgeted PC2 start2 terminal2 us2 fuel iters r h2
  refine ⟨⟨?_, ?_⟩, ?_⟩
  · intro w hw
    exact ⟨(hdone w hw).2.1, (hdone w hw).2.2⟩
  · intro hmem
    obtain ⟨hlen2, hterm2, _⟩ := hdone st.walk hmem
    have hk := hcur (st.walk.length - 1) (by omega) (by omega)
    unfold lastSt at hterm2
    exact hk hterm2
  · intro w hw
    exact ⟨(hinvw.1 w hw).2.1, (hinvw.1 w hw).2.2⟩

/-- Cumulative matrix of the deterministic two-state chain `P = [[0,1],[1,0]]`. -/
def PCflip : List (List ℚ) := [[0, 1], [1, 1]]

/-- Cumulative matrix of a chain whose state 0 self-loops with probability 1. -/
def PCself : List (List ℚ) := [[1, 1], [1, 1]]

/-- Uniform-draw stream that always returns 0. -/
def zeroStream : ℕ → ℚ := fun _ => 0

/-- C2 witness: concrete runs of both loops on the deterministic chain
`[[0,1],[1,0]]` with terminal set `{1}` and start 0, and the claimed
properties of their outputs. -/
theorem C2_witness :
    stepBudgeted PCflip (StartSpec.fixed 0) [1] zeroStream 2 =
        some ⟨0, [0], [[0, 1], [0, 1]], [1, 1], 2⟩ ∧
    walkBudgeted PCflip (StartSpec.fixed 0) [1] zeroStream 3 1 =
        some ([[0, 1]], [1], 1) ∧
    (((∀ w ∈ [[0, 1], [0, 1]], lastSt w ∈ [1] ∧
        ∀ k, 0 < k → k + 1 < w.length → w.getD k 0 ∉ ([1] : List ℕ)) ∧
      [0] ∉ [[0, 1], [0, 1]]) ∧
    (∀ w ∈ [[0, 1]], lastSt w ∈ [1] ∧
      ∀ k, 0 < k → k + 1 < w.length → w.getD k 0 ∉ ([1] : List ℕ))) := by
  refine ⟨by decide, by decide, ?_⟩
  exact C2_completed_walks_terminal PCflip (StartSpec.fixed 0) [1] zeroStream 2
    ⟨0, [0], [[0, 1], [0, 1]], [1, 1], 2⟩ PCflip (StartSpec.fixed 0) [1]
    zeroStream 3 1 ([[0, 1]], [1], 1) (by decide) (by decide)

/-- C10: after any run of either driving mode, the recorded final states and
the stored walks are parallel collections: equal lengths, and the k-th
final state is the last element of the k-th stored walk. -/
theorem C10_parallel_collections (PC : List (List ℚ)) (start : StartSpec)
    (terminal : List ℕ) (us : ℕ → ℚ) (steps : ℕ) (st : SimState)
    (PC2 : List (List ℚ)) (start2 : StartSpec) (terminal2 : List ℕ)
    (us2 : ℕ → ℚ) (fuel iters : ℕ) (r : List (List ℕ) × List ℕ × ℕ)
    (h1 : stepBudgeted PC start terminal us steps = some st)
    (h2 : walkBudgeted PC2 start2 terminal2 us2 fuel iters = some r) :
    (st.final_states.length = st.all_walks.length ∧
      ∀ k, k < st.all_walks.length →
        lastSt (st.all_walks.getD k []) = st.final_states.getD k 0) ∧
    (r.2.1.length = r.1.length ∧
      ∀ k, k < r.1.length → lastSt (r.1.getD k []) = r.2.1.getD k 0) := by
  have hinv := inv_stepBudgeted PC start terminal us steps st h1
  have hinvw := inv_walkBudgeted PC2 start2 terminal2 us2 fuel iters r h2
  exact ⟨⟨hinv.2.2.2.2.1, hinv.2.2.2.2.2⟩, ⟨hinvw.2.1, hinvw.2.2⟩⟩

/-- C10 witness: parallelism of the two output collections on concrete runs
of both loops. -/
theorem C10_witness :
    stepBudgeted PCflip (StartSpec.fixed 0) [1] zeroStream 3 =
        some ⟨0, [0], [[0, 1], [0, 1], [0, 1]], [1, 1, 1], 3⟩ ∧
    walkBudgeted PCflip (StartSpec.fixed 0) [1] zeroStream 3 2 =
        some ([[0, 1], [0, 1]], [1, 1], 2) ∧
    (([1, 1, 1].length = [[0, 1], [0, 1], [0, 1]].length ∧
      ∀ k, k < [[0, 1], [0, 1], [0, 1]].length →
        lastSt ([[0, 1], [0, 1], [0, 1]].getD k []) = [1, 1, 1].getD k 0) ∧
    ([1, 1].length = [[0, 1], [0, 1]].length ∧
      ∀ k, k < [[0, 1], [0, 1]].length →
        lastSt ([[0, 1], [0, 1]].getD k []) = [1, 1].getD k 0)) := by
  refine ⟨by decide, by decide, ?_⟩
  exact C10_parallel_collections PCflip (StartSpec.fixed 0) [1] zeroStream 3
    ⟨0, [0], [[0, 1], [0, 1], [0, 1]], [1, 1, 1], 3⟩ PCflip (StartSpec.fixed 0)
    [1] zeroStream 3 2 ([[0, 1], [0, 1]], [1, 1], 2) (by decide) (by decide)

/-- C6 counterexample: with terminal set `{0}` and fixed starting state 0 —
a starting state that is itself terminal — one budgeted step on the
self-looping chain does not record the length-1 walk `[0]`: the loop first
samples a transition, and the stored walk is `[0, 0]` of length 2. -/
theorem C6_counterexample :
    (0 ∈ ([0] : List ℕ)) ∧
    stepBudgeted PCself (StartSpec.fixed 0) [0] zeroStream 1 =
      some ⟨0, [0], [[0, 0]], [0], 1⟩ ∧
    SimState.all_walks ⟨0, [0], [[0, 0]], [0], 1⟩ ≠ [[0]] := by decide

/-- C6 amended: the step-budgeted loop never closes out a walk before taking
a transition step, even when the current walk's starting state is terminal:
every walk it stores has length at least 2, so no walk is ever recorded as a
length-1 walk consisting of its starting state alone. -/
theorem C6_amended_transition_before_close (PC : List (List ℚ))
    (start : StartSpec) (terminal : List ℕ) (us : ℕ → ℚ) (steps : ℕ)
    (st : SimState) (h : stepBudgeted PC start terminal us steps = some st) :
    ∀ w ∈ st.all_walks, 2 ≤ w.length := by
  have hinv := inv_stepBudgeted PC start terminal us steps st h
  intro w hw
  exact (hinv.2.2.2.1 w hw).1

/-- C6 amended witness: the concrete run of the counterexample, where the
single stored walk has length 2. -/
theorem C6_witness :
    stepBudgeted PCself (StartSpec.fixed 0) [0] zeroStream 1 =
        some ⟨0, [0], [[0, 0]], [0], 1⟩ ∧
    ∀ w ∈ [[0, 0]], 2 ≤ w.length := by
  refine ⟨by decide, ?_⟩
  exact C6_amended_transition_before_close PCself (StartSpec.fixed 0) [0]
    zeroStream 1 ⟨0, [0], [[0, 0]], [0], 1⟩ (by decide)

theorem getD_map_fn {α β : Type} (f : α → β) (d : α) (e : β) :
    ∀ (l : List α) (n : ℕ), n < l.length → (l.map f).getD n e = f (l.getD n d)
  | [], n, h => absurd h (by simp)
  | _ :: _, 0, _ => rfl
  | _ :: l, n + 1, h => getD_map_fn f d e l n (by simpa using h)

theorem getD_range_eq (d : ℕ) : ∀ (n k : ℕ), k < n → (List.range n).getD k d = k := by
  intro n
  induction n with
  | zero => omega
  | succ n ih =>
    intro k hk
    rw [List.range_succ]
    rcases Nat.lt_or_ge k n with h1 | h1
    · rw [getD_append_lt d (List.range n) [n] k (by simpa using h1)]
      exact ih k h1
    · have hk1 : k = n := by omega
      subst hk1
      have h2 := getD_append_len d (List.range k) k
      rwa [List.length_range] at h2

theorem getD_mem_of_lt {α : Type} (d : α) :
    ∀ (l : List α) (n : ℕ), n < l.length → l.getD n d ∈ l
  | [], n, h => absurd h (by simp)
  | a :: l, 0, _ => by simp
  | a :: l, n + 1, h => by
    rw [List.getD_cons_succ]
    exact List.mem_cons_of_mem a (getD_mem_of_lt d l n (by simpa using h))

theorem sum_take_succ : ∀ (l : List ℚ) (k : ℕ), k < l.length →
    (l.take (k + 1)).sum = (l.take k).sum + l.getD k 0
  | [], k, h => absurd h (by simp)
  | a :: l, 0, _ => by simp
  | a :: l, k + 1, h => by
    rw [List.take_succ_cons, List.take_succ_cons, List.sum_cons, List.sum_cons,
      List.getD_cons_succ, sum_take_succ l k (by simpa using h)]
    ring

theorem headD_length_eq (m : List (List ℚ))
    (hsq : ∀ row ∈ m, row.length = m.length) (hne : m ≠ []) :
    (m.headD []).length = m.length := by
  cases m with
  | nil => exact absurd rfl hne
  | cons r t => exact hsq r (by simp)

theorem range_map_headD {β : Type} (g : ℕ → β) (d : β) (c : ℕ) (hc : 0 < c) :
    ((List.range c).map g).headD d = g 0 := by
  cases c with
  | zero => omega
  | succ c2 =>
    rw [List.range_succ_eq_map c2]
    rfl

theorem cm_shape (m : List (List ℚ)) (hsq : ∀ row ∈ m, row.length = m.length) :
    (cumulative_matrix m).length = m.length ∧
      ∀ row ∈ cumulative_matrix m, row.length = m.length := by
  by_cases hne : m = []
  · subst hne
    refine ⟨rfl, ?_⟩
    intro row hrow
    simp [cumulative_matrix, npTranspose] at hrow
  · have hL := headD_length_eq m hsq hne
    have h1 : 0 < m.length := List.length_pos.2 hne
    unfold cumulative_matrix npTranspose
    rw [hL, range_map_headD (fun i => m.map (fun row => (row.take (i + 1)).sum))
      ([] : List ℚ) m.length h1, List.length_map]
    constructor
    · rw [List.length_map, List.length_range]
    · intro row hrow
      rcases List.mem_map.mp hrow with ⟨j2, _, hrow2⟩
      subst hrow2
      simp [List.length_map, List.length_range]

theorem cm_entry (m : List (List ℚ)) (hsq : ∀ row ∈ m, row.length = m.length) :
    ∀ s j, s < m.length → j < m.length →
      ((cumulative_matrix m).getD s []).getD j 0 =
        ((m.getD s []).take (j + 1)).sum := by
  intro s j hs hj
  have hne : m ≠ [] := by
    intro h
    rw [h] at hs
    simp at hs
  have hL := headD_length_eq m hsq hne
  have h1 : 0 < m.length := List.length_pos.2 hne
  have hrow : (cumulative_matrix m).getD s [] =
      ((List.range m.length).map
        (fun i => m.map (fun row => (row.take (i + 1)).sum))).map
        (fun v => v.getD s 0) := by
    unfold cumulative_matrix npTranspose
    rw [hL, range_map_headD (fun i => m.map (fun row => (row.take (i + 1)).sum))
      ([] : List ℚ) m.length h1, List.length_map]
    rw [getD_map_fn _ (0 : ℕ) ([] : List ℚ) (List.range m.length) s
      (by simpa using hs)]
    rw [getD_range_eq (0 : ℕ) m.length s hs]
  rw [hrow, List.map_map]
  rw [getD_map_fn _ (0 : ℕ) (0 : ℚ) (List.range m.length) j (by simpa using hj)]
  rw [getD_range_eq (0 : ℕ) m.length j hj]
  show (m.map (fun row => (row.take (j + 1)).sum)).getD s 0 =
    ((m.getD s []).take (j + 1)).sum
  rw [getD_map_fn (fun row => (row.take (j + 1)).sum) ([] : List ℚ) (0 : ℚ) m s hs]

/-- C4: for a square weight matrix, `cumulative_matrix` preserves the shape
and its entry `(s, j)` is the sum of row `s` over columns `0..j` inclusive;
for non-negative weights each result row is non-decreasing, and when every
row sums to 1 the last entry of each result row is exactly 1. -/
theorem C4_cumulative_matrix_shape_prefix_sums (m : List (List ℚ))
    (hsq : ∀ row ∈ m, row.length = m.length) :
    ((cumulative_matrix m).length = m.length ∧
      ∀ row ∈ cumulative_matrix m, row.length = m.length) ∧
    (∀ s j, s < m.length → j < m.length →
      ((cumulative_matrix m).getD s []).getD j 0 =
        ((m.getD s []).take (j + 1)).sum) ∧
    ((∀ row ∈ m, ∀ x ∈ row, 0 ≤ x) → ∀ s j, s < m.length → j + 1 < m.length →
      ((cumulative_matrix m).getD s []).getD j 0 ≤
        ((cumulative_matrix m).getD s []).getD (j + 1) 0) ∧
    ((∀ row ∈ m, row.sum = 1) → ∀ s, s < m.length →
      lastQ ((cumulative_matrix m).getD s []) = 1) := by
  refine ⟨cm_shape m hsq, cm_entry m hsq, ?_, ?_⟩
  · intro hnn s j hs hj
    rw [cm_entry m hsq s j hs (by omega), cm_entry m hsq s (j + 1) hs hj]
    have hmrow : m.getD s [] ∈ m := getD_mem_of_lt ([] : List ℚ) m s hs
    have hrl : (m.getD s []).length = m.length := hsq (m.getD s []) hmrow
    rw [sum_take_succ (m.getD s []) (j + 1) (by omega)]
    have hx : 0 ≤ (m.getD s []).getD (j + 1) 0 :=
      hnn (m.getD s []) hmrow _ (getD_mem_of_lt (0 : ℚ) (m.getD s []) (j + 1) (by omega))
    linarith
  · intro hrows s hs
    have hne : m ≠ [] := by
      intro h
      rw [h] at hs
      simp at hs
    have h1 : 0 < m.length := List.length_pos.2 hne
    have hrowmem : (cumulative_matrix m).getD s [] ∈ cumulative_matrix m :=
      getD_mem_of_lt ([] : List ℚ) (cumulative_matrix m) s
        (by rw [(cm_shape m hsq).1]; exact hs)
    have hlen : ((cumulative_matrix m).getD s []).length = m.length :=
      (cm_shape m hsq).2 _ hrowmem
    unfold lastQ
    rw [hlen, cm_entry m hsq s (m.length - 1) hs (by omega)]
    have he : m.length - 1 + 1 = m.length := by omega
    rw [he]
    have hmrow : m.getD s [] ∈ m := getD_mem_of_lt ([] : List ℚ) m s hs
    have hrl : (m.getD s []).length = m.length := hsq (m.getD s []) hmrow
    rw [← hrl, List.take_length]
    exact hrows (m.getD s []) hmrow

/-- C4 witness: the square matrix `[[1,0],[0,1]]` with all four properties of
its cumulative matrix `[[1,1],[0,1]]`. -/
theorem C4_witness :
    (∀ row ∈ ([[1, 0], [0, 1]] : List (List ℚ)), row.length = 2) ∧
    (((cumulative_matrix [[1, 0], [0, 1]]).length = 2 ∧
      ∀ row ∈ cumulative_matrix [[1, 0], [0, 1]], row.length = 2) ∧
    (∀ s j, s < 2 → j < 2 →
      ((cumulative_matrix [[1, 0], [0, 1]]).getD s []).getD j 0 =
        ((([[1, 0], [0, 1]] : List (List ℚ)).getD s []).take (j + 1)).sum) ∧
    ((∀ row ∈ ([[1, 0], [0, 1]] : List (List ℚ)), ∀ x ∈ row, 0 ≤ x) →
      ∀ s j, s < 2 → j + 1 < 2 →
      ((cumulative_matrix [[1, 0], [0, 1]]).getD s []).getD j 0 ≤
        ((cumulative_matrix [[1, 0], [0, 1]]).getD s []).getD (j + 1) 0) ∧
    ((∀ row ∈ ([[1, 0], [0, 1]] : List (List ℚ)), row.sum = 1) →
      ∀ s, s < 2 → lastQ ((cumulative_matrix [[1, 0], [0, 1]]).getD s []) = 1)) := by
  refine ⟨by decide, ?_⟩
  exact C4_cumulative_matrix_shape_prefix_sums [[1, 0], [0, 1]] (by decide)

theorem sumF_div_row (s : ℚ) : ∀ (l : List ℚ),
    sumF (l.map (fun x => some (x / s))) = some (l.sum / s)
  | [] => by
    show some (0 : ℚ) = some (0 / s)
    rw [zero_div]
  | a :: l => by
    rw [List.map_cons, List.sum_cons]
    show addF (some (a / s)) (sumF (l.map (fun x => some (x / s)))) =
      some ((a + l.sum) / s)
    rw [sumF_div_row s l]
    show some (a / s + l.sum / s) = some ((a + l.sum) / s)
    rw [add_div]

theorem normalizeRow_sum (row : List ℚ) (hs : row.sum ≠ 0) :
    sumF (normalizeRow row) = some 1 := by
  unfold normalizeRow
  simp only [if_neg hs]
  rw [sumF_div_row row.sum row, div_self hs]

theorem rowCheck_zero_sum (row : List ℚ) (hs : row.sum = 0) :
    rowCheck (normalizeRow row) = false := by
  cases row with
  | nil =>
    show rowCheck [] = false
    unfold rowCheck sumF
    show decide (|(0 : ℚ) - 1| < tol) = false
    rw [decide_eq_false_iff_not]
    unfold tol
    norm_num
  | cons a l =>
    show rowCheck (normalizeRow (a :: l)) = false
    unfold normalizeRow
    rw [List.map_cons, if_pos hs]
    rfl

/-- C3: the normalization and its guard.  If the row-sum assertion passes,
every row of the normalized matrix sums (finitely) to exactly 1; if some
row's weights sum to zero the assertion fails — the non-finite entries that
NumPy's division produces never pass the tolerance check — and a failing
assertion aborts the simulation cell before any walk sampling occurs. -/
theorem C3_normalization_guard (P : List (List ℚ)) (start : StartSpec)
    (terminal : List ℕ) (us : ℕ → ℚ) (steps : ℕ) :
    (rowSumAssert P = true → ∀ row ∈ P, sumF (normalizeRow row) = some 1) ∧
    ((∃ row ∈ P, row.sum = 0) → rowSumAssert P = false) ∧
    (rowSumAssert P = false →
      simulationCell P start terminal us steps = none) := by
  refine ⟨?_, ?_, ?_⟩
  · intro hall row hrow
    unfold rowSumAssert normalizeP at hall
    have hchk : rowCheck (normalizeRow row) = true :=
      List.all_eq_true.mp hall (normalizeRow row)
        (List.mem_map_of_mem normalizeRow hrow)
    by_cases hs : row.sum = 0
    · rw [rowCheck_zero_sum row hs] at hchk
      exact absurd hchk (by simp)
    · exact normalizeRow_sum row hs
  · rintro ⟨row, hrow, hs⟩
    have hntrue : ¬ rowSumAssert P = true := by
      intro hall
      unfold rowSumAssert normalizeP at hall
      have hchk : rowCheck (normalizeRow row) = true :=
        List.all_eq_true.mp hall (normalizeRow row)
          (List.mem_map_of_mem normalizeRow hrow)
      rw [rowCheck_zero_sum row hs] at hchk
      exact absurd hchk (by simp)
    cases hb : rowSumAssert P
    · rfl
    · exact absurd hb hntrue
  · intro hfalse
    simp [simulationCell, hfalse]

theorem rowSumAssert_example : rowSumAssert [[1, 0], [0, 1]] = true := by
  norm_num [rowSumAssert, normalizeP, normalizeRow, rowCheck, sumF, addF, tol]

/-- C3 witness: the matrix `[[1,0],[0,1]]` passes the assertion and its
normalized rows sum to 1; the matrix `[[0,0],[1,0]]` has an all-zero row, so
the assertion fails and the simulation cell aborts with no result. -/
theorem C3_witness :
    (rowSumAssert [[1, 0], [0, 1]] = true ∧
      ∀ row ∈ ([[1, 0], [0, 1]] : List (List ℚ)),
        sumF (normalizeRow row) = some 1) ∧
    ((∃ row ∈ ([[0, 0], [1, 0]] : List (List ℚ)), row.sum = 0) ∧
      rowSumAssert [[0, 0], [1, 0]] = false) ∧
    simulationCell [[0, 0], [1, 0]] (StartSpec.fixed 0) [1] zeroStream 5 =
      none := by
  have hex : ∃ row ∈ ([[0, 0], [1, 0]] : List (List ℚ)), row.sum = 0 :=
    ⟨[0, 0], by simp, by simp⟩
  have hfalse :=
    (C3_normalization_guard [[0, 0], [1, 0]] (StartSpec.fixed 0) [1]
      zeroStream 5).2.1 hex
  exact ⟨⟨rowSumAssert_example,
      (C3_normalization_guard [[1, 0], [0, 1]] (StartSpec.fixed 0) [1]
        zeroStream 5).1 rowSumAssert_example⟩,
    ⟨hex, hfalse⟩,
    (C3_normalization_guard [[0, 0], [1, 0]] (StartSpec.fixed 0) [1]
      zeroStream 5).2.2 hfalse⟩

theorem absorption_cell_ok (fs : List ℕ) (hne : fs ≠ []) : ∀ (terminal : List ℕ),
    absorption_cell terminal fs = Except.ok
      (terminal.map
        (fun j => ((fs.filter (fun i => i == j)).length : ℚ) / (fs.length : ℚ)))
  | [] => rfl
  | j :: rest => by
    have hN : ((fs.length : ℕ) : ℚ) ≠ 0 :=
      Nat.cast_ne_zero.mpr (fun h => hne (List.length_eq_zero.mp h))
    unfold absorption_cell pyDiv
    rw [if_neg hN, absorption_cell_ok fs hne rest, List.map_cons]
    rfl

theorem sum_map_count_div (fs : List ℕ) (s : ℚ) : ∀ (l : List ℕ),
    (l.map (fun j => ((fs.filter (fun i => i == j)).length : ℚ) / s)).sum =
      (l.map (fun j => ((fs.filter (fun i => i == j)).length : ℚ))).sum / s
  | [] => by simp
  | y :: l => by
    rw [List.map_cons, List.sum_cons, List.map_cons, List.sum_cons,
      sum_map_count_div fs s l, add_div]

theorem sum_map_count_cons (x : ℕ) (fs : List ℕ) : ∀ (l : List ℕ),
    (l.map (fun j => (((x :: fs).filter (fun i => i == j)).length : ℚ))).sum =
      (l.map (fun j => if x = j then (1 : ℚ) else 0)).sum +
        (l.map (fun j => ((fs.filter (fun i => i == j)).length : ℚ))).sum
  | [] => by simp
  | y :: l => by
    rw [List.map_cons, List.sum_cons, List.map_cons, List.sum_cons,
      List.map_cons, List.sum_cons, sum_map_count_cons x fs l]
    have he : (((x :: fs).filter (fun i => i == y)).length : ℚ) =
        (if x = y then (1 : ℚ) else 0) +
          ((fs.filter (fun i => i == y)).length : ℚ) := by
      by_cases hj : x = y
      · simp [List.filter_cons, hj]
        ring
      · simp [List.filter_cons, hj]
    rw [he]
    ring

theorem sum_indicator_one (x : ℕ) : ∀ (l : List ℕ), l.Nodup → x ∈ l →
    (l.map (fun j => if x = j then (1 : ℚ) else 0)).sum = 1
  | [], _, hx => absurd hx (by simp)
  | y :: l, hnd, hx => by
    rcases List.mem_cons.mp hx with h | h
    · subst h
      rw [List.map_cons, List.sum_cons, if_pos rfl]
      have hnotin : x ∉ l := (List.nodup_cons.mp hnd).1
      have hz : (l.map (fun j => if x = j then (1 : ℚ) else 0)).sum = 0 := by
        apply List.sum_eq_zero
        intro q hq
        rcases List.mem_map.mp hq with ⟨j, hj, hjq⟩
        rw [← hjq, if_neg (fun he => hnotin (by rw [he]; exact hj))]
      rw [hz]
      norm_num
    · have hy : ¬ x = y := by
        intro he
        rw [he] at h
        exact (List.nodup_cons.mp hnd).1 h
      rw [List.map_cons, List.sum_cons, if_neg hy,
        sum_indicator_one x l (List.nodup_cons.mp hnd).2 h]
      norm_num

theorem count_cast_sum (terminal : List ℕ) (hnd : terminal.Nodup) :
    ∀ (fs : List ℕ), (∀ i ∈ fs, i ∈ terminal) →
      (terminal.map (fun j => ((fs.filter (fun i => i == j)).length : ℚ))).sum
        = (fs.length : ℚ)
  | [], _ => by
    simp
  | x :: fs, hsub => by
    have hx : x ∈ terminal := hsub x (by simp)
    have ih := count_cast_sum terminal hnd fs (fun i hi => hsub i (by simp [hi]))
    rw [sum_map_count_cons x fs terminal, sum_indicator_one x terminal hnd hx,
      ih, List.length_cons]
    push_cast
    ring

/-- C7: whenever at least one walk has completed and every recorded final
state lies in the (duplicate-free) terminal-state list, the
absorption-proportion cell succeeds and its proportions sum to exactly 1. -/
theorem C7_absorption_proportions_sum_one (terminal fs : List ℕ)
    (hnd : terminal.Nodup) (hne : fs ≠ []) (hsub : ∀ i ∈ fs, i ∈ terminal) :
    ∃ props : List ℚ, absorption_cell terminal fs = Except.ok props ∧
      props.sum = 1 := by
  refine ⟨_, absorption_cell_ok fs hne terminal, ?_⟩
  have hN : ((fs.length : ℕ) : ℚ) ≠ 0 :=
    Nat.cast_ne_zero.mpr (fun h => hne (List.length_eq_zero.mp h))
  rw [sum_map_count_div fs ((fs.length : ℕ) : ℚ) terminal,
    count_cast_sum terminal hnd fs hsub, div_self hN]

/-- C7 witness: terminal states `[0, 1]` and final states `[0, 1, 0]` give
proportions `[2/3, 1/3]`, which sum to 1. -/
theorem C7_witness :
    ([0, 1] : List ℕ).Nodup ∧ ([0, 1, 0] : List ℕ) ≠ [] ∧
    (∀ i ∈ ([0, 1, 0] : List ℕ), i ∈ ([0, 1] : List ℕ)) ∧
    ∃ props : List ℚ, absorption_cell [0, 1] [0, 1, 0] = Except.ok props ∧
      props.sum = 1 := by
  refine ⟨by decide, by decide, by decide, ?_⟩
  exact C7_absorption_proportions_sum_one [0, 1] [0, 1, 0] (by decide)
    (by decide) (by decide)

/-- C8 counterexample: with an empty terminal-state list and zero completed
walks, the absorption-proportion cell performs no division at all and
returns an empty list with no error signal of any kind. -/
theorem C8_counterexample : absorption_cell [] [] = Except.ok [] := rfl

theorem exceptCons_error (e : String) (xs : Except String (List ℚ)) :
    exceptCons (Except.error e) xs = Except.error e := by
  cases xs <;> rfl

/-- C8 amended: provided the terminal-state list is nonempty, computing the
absorption proportions with zero completed walks raises the zero-division
error (the reportable condition standing for EmptyAggregate) rather than
silently returning NaN; with an empty terminal list the comprehension
performs no division and silently returns an empty list. -/
theorem C8_amended_zero_division_signal (terminal : List ℕ)
    (hne : terminal ≠ []) :
    absorption_cell terminal [] = Except.error "ZeroDivisionError" := by
  cases terminal with
  | nil => exact absurd rfl hne
  | cons j rest =>
    unfold absorption_cell pyDiv
    rw [if_pos (by simp)]
    exact exceptCons_error "ZeroDivisionError" (absorption_cell rest [])

/-- C8 amended witness: the singleton terminal list `[0]` with zero
completed walks raises the zero-division error. -/
theorem C8_witness :
    (([0] : List ℕ) ≠ []) ∧
    absorption_cell [0] [] = Except.error "ZeroDivisionError" := by
  refine ⟨by decide, ?_⟩
  exact C8_amended_zero_division_signal [0] (by decide)

theorem walkTimesGo_cons (q : List ℚ) (es : ℕ → ℚ) (i : ℕ) (rest : List ℕ)
    (n : ℕ) :
    (walkTimesGo q es (i :: rest) n).1 =
      (holding_scale q i).map (fun s => s * es n) ::
        (walkTimesGo q es rest (n + 1)).1 := rfl

theorem walkTimesLoop_cons (q : List ℚ) (es : ℕ → ℚ) (w : List ℕ)
    (ws : List (List ℕ)) (n : ℕ) :
    (walkTimesLoop q es (w :: ws) n).1 =
      (walkTimesGo q es w n).1 ::
        (walkTimesLoop q es ws (walkTimesGo q es w n).2).1 := rfl

theorem walkTimesGo_spec (q : List ℚ) (es : ℕ → ℚ) : ∀ (w : List ℕ) (n : ℕ),
    (walkTimesGo q es w n).1.length = w.length ∧
    ∀ p, p < w.length →
      ((walkTimesGo q es w n).1.getD p (some 0) = none ↔
        q.getD (w.getD p 0) 0 = 0)
  | [], n => by
    refine ⟨rfl, ?_⟩
    intro p hp
    simp at hp
  | i :: rest, n => by
    have ih := walkTimesGo_spec q es rest (n + 1)
    constructor
    · rw [walkTimesGo_cons, List.length_cons, ih.1, List.length_cons]
    · intro p hp
      cases p with
      | zero =>
        rw [walkTimesGo_cons, List.getD_cons_zero, List.getD_cons_zero]
        unfold holding_scale
        by_cases h0 : q.getD i 0 = 0
        · rw [if_pos h0]
          exact iff_of_true rfl h0
        · rw [if_neg h0]
          exact iff_of_false (by simp) h0
      | succ p2 =>
        rw [walkTimesGo_cons, List.getD_cons_succ, List.getD_cons_succ]
        exact ih.2 p2 (by simpa using hp)

theorem walkTimesLoop_spec (q : List ℚ) (es : ℕ → ℚ) :
    ∀ (aw : List (List ℕ)) (n : ℕ),
    (walkTimesLoop q es aw n).1.length = aw.length ∧
    ∀ k, k < aw.length →
      ((walkTimesLoop q es aw n).1.getD k []).length = (aw.getD k []).length ∧
      ∀ p, p < (aw.getD k []).length →
        (((walkTimesLoop q es aw n).1.getD k []).getD p (some 0) = none ↔
          q.getD ((aw.getD k []).getD p 0) 0 = 0)
  | [], n => by
    refine ⟨rfl, ?_⟩
    intro k hk
    simp at hk
  | w :: ws, n => by
    have ihw := walkTimesGo_spec q es w n
    have ih := walkTimesLoop_spec q es ws (walkTimesGo q es w n).2
    constructor
    · rw [walkTimesLoop_cons, List.length_cons, ih.1, List.length_cons]
    · intro k hk
      cases k with
      | zero =>
        rw [walkTimesLoop_cons, List.getD_cons_zero, List.getD_cons_zero]
        exact ⟨ihw.1, ihw.2⟩
      | succ k2 =>
        rw [walkTimesLoop_cons, List.getD_cons_succ, List.getD_cons_succ]
        exact ih.2 k2 (by simpa using hk)

/-- C9 amended: the reaching-times cell always completes, producing one
times list per walk, of the same length as the walk; the entry for a
visited state is the non-finite marker (NumPy's silently produced infinity)
exactly when that state's leaving rate is zero, and a finite draw
otherwise.  No error condition is signalled for zero rates. -/
theorem C9_amended_silent_infinite_times (q : List ℚ) (es : ℕ → ℚ)
    (aw : List (List ℕ)) :
    (all_times q es aw).length = aw.length ∧
    ∀ k, k < aw.length →
      ((all_times q es aw).getD k []).length = (aw.getD k []).length ∧
      ∀ p, p < (aw.getD k []).length →
        (((all_times q es aw).getD k []).getD p (some 0) = none ↔
          q.getD ((aw.getD k []).getD p 0) 0 = 0) := by
  unfold all_times
  exact walkTimesLoop_spec q es aw 0

/-- C9 counterexample: with leaving-rate vector `[0]` (state 0 has rate
zero) and the single walk `[0]`, the reaching-times cell completes normally
and stores the non-finite duration (`none`, NumPy's infinity) instead of
signalling any condition. -/
theorem C9_counterexample : all_times [0] oneStream [[0]] = [[none]] := rfl

/-- C9 amended witness: rates `[0, 2]` and the walk `[1, 0]` — the state-1
entry is finite, the state-0 entry is the silently produced infinity. -/
theorem C9_witness :
    (all_times [0, 2] oneStream [[1, 0]]).length =
      ([[1, 0]] : List (List ℕ)).length ∧
    ∀ k, k < ([[1, 0]] : List (List ℕ)).length →
      ((all_times [0, 2] oneStream [[1, 0]]).getD k []).length =
        (([[1, 0]] : List (List ℕ)).getD k []).length ∧
      ∀ p, p < (([[1, 0]] : List (List ℕ)).getD k []).length →
        (((all_times [0, 2] oneStream [[1, 0]]).getD k []).getD p (some 0) =
            none ↔
          ([0, 2] : List ℚ).getD ((([[1, 0]] : List (List ℕ)).getD k []).getD
            p 0) 0 = 0) :=
  C9_amended_silent_infinite_times [0, 2] oneStream [[1, 0]]

end TerminalWalker
